import Mathlib

/-!
Verification of the hash-chained decision ledger of the T-Trace dashboards.

The core under scrutiny is the chain verifier that every dashboard embeds:
src/db.py, src/E1.py and src/E2.py carry an identical two-check
`verify_chain` (recomputed digest and stored `prev_hash` linkage), while
src/E3.py carries a hash-only variant.  Records are JSON objects read from a
JSON-lines ledger; the hashable payload of a record is its
`json.dumps(rec_copy, sort_keys=True, separators=(",", ":"))` serialization
after `rec_copy.pop("hash")`, and the digest is
`hashlib.sha256((prev_hash + payload).encode("utf-8")).hexdigest()`.

The embedding models JSON values with integer numerics (no claim under
consideration depends on Python float repr formatting), Python dicts as
key-value lists in insertion order (Python dict keys are unique, so the
list-with-unique-keys fragment is the faithful one), Python exceptions as
`Except`, and implements SHA-256 and the canonical serialization in full so
that concrete digests evaluate inside the logic.
-/

namespace TTrace

/-- Truncate to a 32-bit word. -/
def w32 (n : Nat) : Nat := n % 4294967296

/-- Rotate a 32-bit word right by `n` bits. -/
def rotr (n x : Nat) : Nat := (x >>> n) ||| (w32 ((x % (1 <<< n)) <<< (32 - n)))

/-- SHA-256 big sigma 0. -/
def bsig0 (x : Nat) : Nat := (rotr 2 x) ^^^ (rotr 13 x) ^^^ (rotr 22 x)

/-- SHA-256 big sigma 1. -/
def bsig1 (x : Nat) : Nat := (rotr 6 x) ^^^ (rotr 11 x) ^^^ (rotr 25 x)

/-- SHA-256 small sigma 0. -/
def ssig0 (x : Nat) : Nat := (rotr 7 x) ^^^ (rotr 18 x) ^^^ (x >>> 3)

/-- SHA-256 small sigma 1. -/
def ssig1 (x : Nat) : Nat := (rotr 17 x) ^^^ (rotr 19 x) ^^^ (x >>> 10)

/-- The 64 SHA-256 round constants. -/
def shaK : List Nat :=
  [1116352408, 1899447441, 3049323471, 3921009573, 961987163, 1508970993,
   2453635748, 2870763221, 3624381080, 310598401, 607225278, 1426881987,
   1925078388, 2162078206, 2614888103, 3248222580, 3835390401, 4022224774,
   264347078, 604807628, 770255983, 1249150122, 1555081692, 1996064986,
   2554220882, 2821834349, 2952996808, 3210313671, 3336571891, 3584528711,
   113926993, 338241895, 666307205, 773529912, 1294757372, 1396182291,
   1695183700, 1986661051, 2177026350, 2456956037, 2730485921, 2820302411,
   3259730800, 3345764771, 3516065817, 3600352804, 4094571909, 275423344,
   430227734, 506948616, 659060556, 883997877, 958139571, 1322822218,
   1537002063, 1747873779, 1955562222, 2024104815, 2227730452, 2361852424,
   2428436474, 2756734187, 3204031479, 3329325298]

/-- SHA-256 working state: eight 32-bit words. -/
structure Hash8 where
  a : Nat
  b : Nat
  c : Nat
  d : Nat
  e : Nat
  f : Nat
  g : Nat
  h : Nat

/-- SHA-256 initial state. -/
def initH : Hash8 :=
  ⟨1779033703,
   3144134277,
   1013904242,
   2773480762,
   1359893119,
   2600822924,
   528734635,
   1541459225⟩

/-- One SHA-256 compression round. -/
def shaStep (s : Hash8) (ki wi : Nat) : Hash8 :=
  let ch := (s.e &&& s.f) ^^^ ((s.e ^^^ 4294967295) &&& s.g)
  let t1 := w32 (s.h + bsig1 s.e + ch + ki + wi)
  let maj := (s.a &&& s.b) ^^^ (s.a &&& s.c) ^^^ (s.b &&& s.c)
  let t2 := w32 (bsig0 s.a + maj)
  ⟨w32 (t1 + t2), s.a, s.b, s.c, w32 (s.d + t1), s.e, s.f, s.g⟩

/-- Extend the 16 message words to 64; `acc` holds the words produced so far, reversed. -/
def extendW : Nat → List Nat → List Nat
  | 0, acc => acc.reverse
  | k + 1, acc =>
    let g := fun i => acc.getD i 0
    extendW k (w32 (g 15 + ssig0 (g 14) + g 6 + ssig1 (g 1)) :: acc)

/-- Compress one 512-bit block, given as its 16 words. -/
def compressBlock (h : Hash8) (ws16 : List Nat) : Hash8 :=
  let ws := extendW 48 ws16.reverse
  let s := (List.zip shaK ws).foldl (fun s p => shaStep s p.1 p.2) h
  ⟨w32 (h.a + s.a), w32 (h.b + s.b), w32 (h.c + s.c), w32 (h.d + s.d),
   w32 (h.e + s.e), w32 (h.f + s.f), w32 (h.g + s.g), w32 (h.h + s.h)⟩

/-- Process the padded word stream, 16 words at a time. -/
def processWords : Hash8 → List Nat → Hash8
  | h, w0 :: w1 :: w2 :: w3 :: w4 :: w5 :: w6 :: w7 :: w8 :: w9 :: w10 :: w11 :: w12 :: w13 :: w14 :: w15 :: rest =>
    processWords (compressBlock h [w0, w1, w2, w3, w4, w5, w6, w7, w8, w9, w10, w11, w12, w13, w14, w15]) rest
  | h, _ => h

/-- Big-endian 8-byte encoding of a 64-bit length. -/
def beBytes8 (n : Nat) : List Nat :=
  [(n >>> 56) % 256, (n >>> 48) % 256, (n >>> 40) % 256, (n >>> 32) % 256,
   (n >>> 24) % 256, (n >>> 16) % 256, (n >>> 8) % 256, n % 256]

/-- SHA-256 padding: append 0x80, zeros, and the 64-bit big-endian bit length. -/
def padBytes (msg : List Nat) : List Nat :=
  let L := msg.length
  msg ++ [128] ++ List.replicate ((64 - ((L + 9) % 64)) % 64) 0 ++ beBytes8 (8 * L)

/-- Pack bytes into big-endian 32-bit words. -/
def toWords : List Nat → List Nat
  | b0 :: b1 :: b2 :: b3 :: rest => ((b0 <<< 24) ||| (b1 <<< 16) ||| (b2 <<< 8) ||| b3) :: toWords rest
  | _ => []

/-- Lowercase hexadecimal digit for a nibble. -/
def hexDigit (n : Nat) : Char := if n < 10 then Char.ofNat (48 + n) else Char.ofNat (87 + n)

/-- Lowercase 8-hex-digit rendering of a 32-bit word. -/
def hex8 (w : Nat) : String :=
  String.mk ((List.range 8).map (fun i => hexDigit ((w >>> (28 - 4 * i)) % 16)))

/-- UTF-8 encoding of one character. -/
def utf8Char (c : Char) : List Nat :=
  let n := c.toNat
  if n < 128 then [n]
  else if n < 2048 then [192 + n / 64, 128 + n % 64]
  else if n < 65536 then [224 + n / 4096, 128 + (n / 64) % 64, 128 + n % 64]
  else [240 + n / 262144, 128 + (n / 4096) % 64, 128 + (n / 64) % 64, 128 + n % 64]

/-- UTF-8 bytes of a string, as Python's `str.encode("utf-8")`. -/
def strBytes (s : String) : List Nat := (s.data.map utf8Char).flatten

/-- Model of `hashlib.sha256(s.encode("utf-8")).hexdigest()`. -/
def sha256hex (s : String) : String :=
  let hsh := processWords initH (toWords (padBytes (strBytes s)))
  hex8 hsh.a ++ hex8 hsh.b ++ hex8 hsh.c ++ hex8 hsh.d ++
  hex8 hsh.e ++ hex8 hsh.f ++ hex8 hsh.g ++ hex8 hsh.h

/-- JSON values as they occur in the ledger records.  Numerics are modeled as
integers: none of the properties under consideration depends on Python float
repr formatting, and every other aspect of the serialization is exact. -/
inductive JVal where
  | jnull : JVal
  | jbool : Bool → JVal
  | jint : Int → JVal
  | jstr : String → JVal
  | jarr : List JVal → JVal
  | jobj : List (String × JVal) → JVal

mutual

/-- Boolean equality on JSON values. -/
def beqJ : JVal → JVal → Bool
  | .jnull, .jnull => true
  | .jbool a, .jbool b => a == b
  | .jint a, .jint b => a == b
  | .jstr a, .jstr b => a == b
  | .jarr a, .jarr b => beqL a b
  | .jobj a, .jobj b => beqO a b
  | _, _ => false
termination_by structural a => a

/-- Boolean equality on JSON arrays. -/
def beqL : List JVal → List JVal → Bool
  | [], [] => true
  | a :: as, b :: bs => beqJ a b && beqL as bs
  | _, _ => false
termination_by structural a => a

/-- Boolean equality on JSON object entry lists. -/
def beqO : List (String × JVal) → List (String × JVal) → Bool
  | [], [] => true
  | (k, v) :: as, (k2, v2) :: bs => k == k2 && beqJ v v2 && beqO as bs
  | _, _ => false
termination_by structural a => a

end

mutual

theorem beqJ_eq : ∀ a b : JVal, beqJ a b = true ↔ a = b
  | .jnull, .jnull => by simp [beqJ]
  | .jnull, .jbool _ => by simp [beqJ]
  | .jnull, .jint _ => by simp [beqJ]
  | .jnull, .jstr _ => by simp [beqJ]
  | .jnull, .jarr _ => by simp [beqJ]
  | .jnull, .jobj _ => by simp [beqJ]
  | .jbool _, .jnull => by simp [beqJ]
  | .jbool a, .jbool b => by simp [beqJ]
  | .jbool _, .jint _ => by simp [beqJ]
  | .jbool _, .jstr _ => by simp [beqJ]
  | .jbool _, .jarr _ => by simp [beqJ]
  | .jbool _, .jobj _ => by simp [beqJ]
  | .jint _, .jnull => by simp [beqJ]
  | .jint _, .jbool _ => by simp [beqJ]
  | .jint a, .jint b => by simp [beqJ]
  | .jint _, .jstr _ => by simp [beqJ]
  | .jint _, .jarr _ => by simp [beqJ]
  | .jint _, .jobj _ => by simp [beqJ]
  | .jstr _, .jnull => by simp [beqJ]
  | .jstr _, .jbool _ => by simp [beqJ]
  | .jstr _, .jint _ => by simp [beqJ]
  | .jstr a, .jstr b => by simp [beqJ]
  | .jstr _, .jarr _ => by simp [beqJ]
  | .jstr _, .jobj _ => by simp [beqJ]
  | .jarr _, .jnull => by simp [beqJ]
  | .jarr _, .jbool _ => by simp [beqJ]
  | .jarr _, .jint _ => by simp [beqJ]
  | .jarr _, .jstr _ => by simp [beqJ]
  | .jarr a, .jarr b => by simp [beqJ, beqL_eq a b]
  | .jarr _, .jobj _ => by simp [beqJ]
  | .jobj _, .jnull => by simp [beqJ]
  | .jobj _, .jbool _ => by simp [beqJ]
  | .jobj _, .jint _ => by simp [beqJ]
  | .jobj _, .jstr _ => by simp [beqJ]
  | .jobj _, .jarr _ => by simp [beqJ]
  | .jobj a, .jobj b => by simp [beqJ, beqO_eq a b]
termination_by structural a => a

theorem beqL_eq : ∀ a b : List JVal, beqL a b = true ↔ a = b
  | [], [] => by simp [beqL]
  | [], _ :: _ => by simp [beqL]
  | _ :: _, [] => by simp [beqL]
  | a :: as, b :: bs => by simp [beqL, beqJ_eq a b, beqL_eq as bs]
termination_by structural a => a

theorem beqO_eq : ∀ a b : List (String × JVal), beqO a b = true ↔ a = b
  | [], [] => by simp [beqO]
  | [], _ :: _ => by simp [beqO]
  | _ :: _, [] => by simp [beqO]
  | (k, v) :: as, (k2, v2) :: bs => by
      simp [beqO, beqJ_eq v v2, beqO_eq as bs, and_assoc]
termination_by structural a => a

end

instance : DecidableEq JVal := fun a b => decidable_of_iff _ (beqJ_eq a b)

/-- Lowercase 4-hex-digit rendering, for JSON `\u` escapes. -/
def hex4 (n : Nat) : String :=
  String.mk [hexDigit ((n >>> 12) % 16), hexDigit ((n >>> 8) % 16), hexDigit ((n >>> 4) % 16), hexDigit (n % 16)]

/-- JSON string escaping of one character, following `json.dumps` with its
default `ensure_ascii=True`: quote and backslash escaped, control characters
and all non-ASCII escaped (astral characters as surrogate pairs). -/
def escChar (c : Char) : String :=
  let n := c.toNat
  if c = '"' then "\\\""
  else if c = '\\' then "\\\\"
  else if n = 8 then "\\b"
  else if n = 9 then "\\t"
  else if n = 10 then "\\n"
  else if n = 12 then "\\f"
  else if n = 13 then "\\r"
  else if n < 32 then "\\u" ++ hex4 n
  else if n < 127 then String.mk [c]
  else if n < 65536 then "\\u" ++ hex4 n
  else "\\u" ++ hex4 (55296 + (n - 65536) / 1024) ++ "\\u" ++ hex4 (56320 + (n - 65536) % 1024)

/-- JSON rendering of a string literal. -/
def dumpStr (s : String) : String := "\"" ++ String.join (s.data.map escChar) ++ "\""

/-- Python string `<`: lexicographic comparison of code points. -/
def ltChars : List Char → List Char → Bool
  | [], [] => false
  | [], _ :: _ => true
  | _ :: _, [] => false
  | a :: as, b :: bs =>
    if a.toNat < b.toNat then true
    else if b.toNat < a.toNat then false
    else ltChars as bs

/-- Insert a serialized object entry into a key-ordered list, before the first
strictly greater key. -/
def insKey (p : String × String) : List (String × String) → List (String × String)
  | [] => [p]
  | q :: qs => if ltChars p.1.data q.1.data then p :: q :: qs else q :: insKey p qs

/-- Model of Python's `sorted` over dict items with unique keys: a stable
insertion sort comparing keys by code points. -/
def sortPairs : List (String × String) → List (String × String)
  | [] => []
  | p :: ps => insKey p (sortPairs ps)

/-- Join with comma separator, the item separator of `separators=(",", ":")`. -/
def commaJoin : List String → String
  | [] => ""
  | [s] => s
  | s :: rest => s ++ "," ++ commaJoin rest

mutual

/-- Model of `json.dumps(v, sort_keys=True, separators=(",", ":"))`: object
keys sorted lexicographically, no insignificant whitespace. -/
def dumps : JVal → String
  | .jnull => "null"
  | .jbool true => "true"
  | .jbool false => "false"
  | .jint n => toString n
  | .jstr s => dumpStr s
  | .jarr xs => "[" ++ commaJoin (dumpsList xs) ++ "]"
  | .jobj kvs => "\x7b" ++ commaJoin ((sortPairs (dumpsEntries kvs)).map Prod.snd) ++ "\x7d"
termination_by structural v => v

/-- Serialize the elements of a JSON array. -/
def dumpsList : List JVal → List String
  | [] => []
  | x :: xs => dumps x :: dumpsList xs
termination_by structural xs => xs

/-- Serialize object entries, keeping the original key alongside the rendered
`"key":value` text so entries can then be ordered by key. -/
def dumpsEntries : List (String × JVal) → List (String × String)
  | [] => []
  | (k, v) :: rest => (k, dumpStr k ++ ":" ++ dumps v) :: dumpsEntries rest
termination_by structural rest => rest

end

/-- A ledger record: a JSON object as parsed from one line of the JSONL
ledger, its entries in insertion order.  Python dict keys are unique. -/
abbrev Record : Type := List (String × JVal)

/-- Python dict lookup on a record. -/
def lookupJ (r : Record) (k : String) : Option JVal := List.lookup k r

/-- Python `dict.pop(k)`: the value at `k` together with the dict without that
key, or `none` (a KeyError) when the key is absent. -/
def popKey (r : Record) (k : String) : Option (JVal × Record) :=
  match lookupJ r k with
  | none => none
  | some v => some (v, List.filter (fun p => p.1 != k) r)

/-- Python exceptions that the verifier can raise. -/
inductive PyErr where
  | keyError : String → PyErr
deriving DecidableEq

deriving instance DecidableEq for Except

/-- Genesis sentinel, `"0" * 64` in the source. -/
def genesisSentinel : String := String.mk (List.replicate 64 '0')

/-- The hashable payload of a record: `json.dumps` of its copy after
`pop("hash")`. -/
def payloadOf (r : Record) : String := dumps (.jobj (List.filter (fun p => p.1 != "hash") r))

/-- The digest `verify_chain` recomputes for a record given the expected
predecessor hash. -/
def digestOf (prev : String) (r : Record) : String := sha256hex (prev ++ payloadOf r)

/-- Loop of `verify_chain` from src/db.py lines 50-62 (E1.py and E2.py carry
the identical function), with the running `prev_hash` explicit.  When the
stored-hash check passes, the stored value equals `.jstr calc`, so threading
`calc` is the source's `prev_hash = stored_hash`. -/
def verifyFrom : String → List Record → Except PyErr Bool
  | _, [] => .ok true
  | prev, rec0 :: rest =>
    match popKey rec0 "hash" with
    | none => .error (.keyError "hash")
    | some (stored, rc) =>
      let payload := dumps (.jobj rc)
      let calcHash := sha256hex (prev ++ payload)
      if JVal.jstr calcHash ≠ stored then .ok false
      else
        match lookupJ rc "prev_hash" with
        | none => .error (.keyError "prev_hash")
        | some pv =>
          if pv ≠ JVal.jstr prev then .ok false
          else verifyFrom calcHash rest

/-- `verify_chain(records)` of src/db.py: two checks per record, from the
genesis sentinel. -/
def verify_chain (records : List Record) : Except PyErr Bool :=
  verifyFrom genesisSentinel records

/-- Loop of src/E3.py's `verify_chain` (lines 74-84): identical except that
the `prev_hash` field comparison is omitted. -/
def verifyFromE3 : String → List Record → Except PyErr Bool
  | _, [] => .ok true
  | prev, rec0 :: rest =>
    match popKey rec0 "hash" with
    | none => .error (.keyError "hash")
    | some (stored, rc) =>
      let payload := dumps (.jobj rc)
      let calcHash := sha256hex (prev ++ payload)
      if JVal.jstr calcHash ≠ stored then .ok false
      else verifyFromE3 calcHash rest

/-- `verify_chain(records)` of src/E3.py. -/
def verify_chainE3 (records : List Record) : Except PyErr Bool :=
  verifyFromE3 genesisSentinel records

/-- Spec-side chain invariant, following the claim's wording: threading the
expected predecessor hash from the sentinel, every record stores a hash equal
to the recomputed digest and stores the expected predecessor in `prev_hash`;
the next expected value is the record's stored hash. -/
def ChainInv : String → List Record → Prop
  | _, [] => True
  | prev, r :: rs => ∃ s : String,
      lookupJ r "hash" = some (.jstr s) ∧
      s = digestOf prev r ∧
      lookupJ r "prev_hash" = some (.jstr prev) ∧
      ChainInv s rs

/-- Which of the two chain checks failed. -/
inductive FailReason where
  | hashMismatch : FailReason
  | prevLinkMismatch : FailReason
deriving DecidableEq

/-- Modelled from the spec: the result type of the interface
`verifyChain(records) -> brace valid: bool, failedAt: optional(position, reason) brace`
(section 6); no function in src/ returns diagnostics, so this type and the
verifier below are built from the spec's algorithm in section 4.2. -/
structure VerificationResult where
  valid : Bool
  failedAt : Option (Nat × FailReason)
deriving DecidableEq

/-- Modelled from the spec: the VerifyChain replay of section 4.2, reporting
the first offending record's position and which check failed.  A missing or
non-string `hash` field counts as a recomputed-hash mismatch, and a missing
`prev_hash` field as a linkage mismatch; the spec's records always carry
both fields, so this choice is unobservable on spec-conformant input. -/
def verifySpecFrom : String → Nat → List Record → VerificationResult
  | _, _, [] => ⟨true, none⟩
  | prev, i, r :: rs =>
    if lookupJ r "hash" ≠ some (.jstr (digestOf prev r)) then ⟨false, some (i, .hashMismatch)⟩
    else if lookupJ r "prev_hash" ≠ some (.jstr prev) then ⟨false, some (i, .prevLinkMismatch)⟩
    else verifySpecFrom (digestOf prev r) (i + 1) rs

/-- Position-reporting verification of a whole ledger, from the genesis
sentinel. -/
def verifySpec (records : List Record) : VerificationResult :=
  verifySpecFrom genesisSentinel 0 records

/-- Outcome of the dashboard's ledger-integrity section. -/
inductive LedgerStatus where
  | emptyLedger : LedgerStatus
  | chainValid : LedgerStatus
  | chainInvalid : LedgerStatus
  | raised : PyErr → LedgerStatus
deriving DecidableEq

/-- Caller flow of src/db.py: the emptiness guard of lines 45-47 stops with an
"empty ledger" warning before `verify_chain` runs; otherwise the integrity
section reports according to `verify_chain` (E1.py and E2.py are identical;
E3.py has no emptiness guard). -/
def dashboardStatus (records : List Record) : LedgerStatus :=
  if records.length = 0 then .emptyLedger
  else
    match verify_chain records with
    | .ok true => .chainValid
    | .ok false => .chainInvalid
    | .error e => .raised e

/-- Modelled from the spec: `Append(ledger_tail_hash, new_record_fields)` of
section 4.2 — the decision-logging producer script is not under src/.  It sets
`prev_hash` to the chain tip and `hash` to the digest of the tip concatenated
with the canonical serialization of the fields including `prev_hash`. -/
def appendRec (tailHash : String) (fields : Record) : Record :=
  let fields2 := fields ++ [("prev_hash", JVal.jstr tailHash)]
  fields2 ++ [("hash", JVal.jstr (sha256hex (tailHash ++ dumps (.jobj fields2))))]

/-- Sequential `Append` calls, threading the tail hash: each new record's hash
becomes the tail for the next. -/
def buildChain : String → List Record → List Record
  | _, [] => []
  | tailHash, fs :: rest =>
    appendRec tailHash fs ::
      buildChain (sha256hex (tailHash ++ dumps (.jobj (fs ++ [("prev_hash", JVal.jstr tailHash)])))) rest

/-- A ledger built purely by sequential `Append` calls from the empty ledger. -/
def buildLedger (fss : List Record) : List Record := buildChain genesisSentinel fss

/-- Python dict assignment `r[k] = v`: replace the value at an existing key in
place, else add the key at the end. -/
def setKey : Record → String → JVal → Record
  | [], k, v => [(k, v)]
  | (k2, v2) :: rest, k, v => if k2 == k then (k, v) :: rest else (k2, v2) :: setKey rest k v

/-- Expected predecessor hash after replaying a prefix of records. -/
def chainPrev : String → List Record → String
  | prev, [] => prev
  | prev, r :: rs => chainPrev (digestOf prev r) rs

/-- A heap of Python dict objects, to make the in-place mutation of
`rec_copy.pop("hash")` and its confinement to the copy observable. -/
structure Heap where
  cells : List Record

/-- Dereference a record object. -/
def readH (h : Heap) (i : Nat) : Record := h.cells.getD i []

/-- Overwrite a record object in place. -/
def writeH (h : Heap) (i : Nat) (r : Record) : Heap := ⟨h.cells.set i r⟩

/-- Allocate a fresh record object. -/
def allocH (h : Heap) (r : Record) : Heap × Nat := (⟨h.cells ++ [r]⟩, h.cells.length)

/-- Python `rec.copy()`: allocate a fresh object holding the same entries. -/
def copyH (h : Heap) (i : Nat) : Heap × Nat := allocH h (readH h i)

/-- Python `d.pop(k)` on a heap object: return the value and remove the key in
place, or report the KeyError and leave the heap unchanged. -/
def popH (h : Heap) (i : Nat) (k : String) : Option JVal × Heap :=
  match lookupJ (readH h i) k with
  | none => (none, h)
  | some v => (some v, writeH h i (List.filter (fun p => p.1 != k) (readH h i)))

/-- The db.py `verify_chain` loop over heap-allocated records: each iteration
copies the record (`rec_copy = rec.copy()`) and pops `"hash"` from the copy,
exactly as lines 52-54 of src/db.py do. -/
def verifyFromH : Heap → String → List Nat → Except PyErr Bool × Heap
  | h, _, [] => (.ok true, h)
  | h, prev, i :: rest =>
    let hj := copyH h i
    match popH hj.1 hj.2 "hash" with
    | (none, h2) => (.error (.keyError "hash"), h2)
    | (some stored, h2) =>
      let payload := dumps (.jobj (readH h2 hj.2))
      let calcHash := sha256hex (prev ++ payload)
      if JVal.jstr calcHash ≠ stored then (.ok false, h2)
      else
        match lookupJ (readH h2 hj.2) "prev_hash" with
        | none => (.error (.keyError "prev_hash"), h2)
        | some pv =>
          if pv ≠ JVal.jstr prev then (.ok false, h2)
          else verifyFromH h2 calcHash rest

/-! ### Dictionary lemmas -/

theorem lookupJ_filter_ne (r : Record) (k k2 : String) (h : k ≠ k2) :
    lookupJ (List.filter (fun p => p.1 != k2) r) k = lookupJ r k := by
  induction r with
  | nil => rfl
  | cons p ps ih =>
    obtain ⟨pk, pv⟩ := p
    by_cases hp : pk = k2
    · have hk : (k == pk) = false := by simp [hp, h]
      have hfp : (pk != k2) = false := by simp [hp]
      simp only [lookupJ] at ih ⊢
      simp [List.filter_cons, hfp, List.lookup_cons, hk, ih]
    · have hfp : (pk != k2) = true := by simp [hp]
      by_cases hk : k = pk
      · subst hk
        simp [lookupJ, List.filter_cons, hfp, List.lookup_cons]
      · have hk' : (k == pk) = false := by simp [hk]
        simp only [lookupJ] at ih ⊢
        simp [List.filter_cons, hfp, List.lookup_cons, hk', ih]

theorem lookup_setKey_ne (r : Record) (f k : String) (v : JVal) (h : k ≠ f) :
    lookupJ (setKey r f v) k = lookupJ r k := by
  have hkf : (k == f) = false := by simp [h]
  induction r with
  | nil => simp [setKey, lookupJ, List.lookup_cons, hkf]
  | cons p ps ih =>
    obtain ⟨pk, pv⟩ := p
    by_cases hp : pk = f
    · have hpe : (pk == f) = true := by simp [hp]
      have hk : (k == pk) = false := by simp [hp, h]
      simp [setKey, hpe, lookupJ, List.lookup_cons, hk, hkf]
    · have hpe : (pk == f) = false := by simp [hp]
      by_cases hk : k = pk
      · subst hk
        simp [setKey, hpe, lookupJ, List.lookup_cons]
      · have hk' : (k == pk) = false := by simp [hk]
        simp only [lookupJ] at ih ⊢
        simp [setKey, hpe, List.lookup_cons, hk', ih]

/-! ### Unfolding the verifier loop -/

/-- Normal form of one iteration of the db.py loop: the `pop`, the serialize,
the two checks and the threading, with the `prev_hash` lookup rewritten from
the popped copy to the record itself. -/
theorem verifyFrom_cons (prev : String) (r : Record) (rest : List Record) :
    verifyFrom prev (r :: rest) =
      match lookupJ r "hash" with
      | none => .error (.keyError "hash")
      | some stored =>
        if JVal.jstr (digestOf prev r) = stored then
          match lookupJ r "prev_hash" with
          | none => .error (.keyError "prev_hash")
          | some pv =>
            if pv = JVal.jstr prev then verifyFrom (digestOf prev r) rest
            else .ok false
        else .ok false := by
  cases h : lookupJ r "hash" with
  | none => simp [verifyFrom, popKey, h]
  | some stored =>
    simp only [verifyFrom, popKey, h]
    rw [lookupJ_filter_ne r "prev_hash" "hash" (by decide)]
    simp only [digestOf, payloadOf, ite_not]

theorem verifyFrom_cons_noHash {prev : String} {r : Record} {rest : List Record}
    (h : lookupJ r "hash" = none) :
    verifyFrom prev (r :: rest) = .error (.keyError "hash") := by
  rw [verifyFrom_cons, h]

theorem verifyFrom_cons_badHash {prev : String} {r : Record} {rest : List Record} {v0 : JVal}
    (h : lookupJ r "hash" = some v0) (hne : JVal.jstr (digestOf prev r) ≠ v0) :
    verifyFrom prev (r :: rest) = .ok false := by
  rw [verifyFrom_cons, h]
  simp [hne]

theorem verifyFrom_cons_pass {prev : String} {r : Record} {rest : List Record}
    (h1 : lookupJ r "hash" = some (.jstr (digestOf prev r)))
    (h2 : lookupJ r "prev_hash" = some (.jstr prev)) :
    verifyFrom prev (r :: rest) = verifyFrom (digestOf prev r) rest := by
  rw [verifyFrom_cons, h1]
  simp [h2]

/-- Normal form of one step of the spec-modelled verifier. -/
theorem verifySpecFrom_cons (prev : String) (i : Nat) (r : Record) (rs : List Record) :
    verifySpecFrom prev i (r :: rs) =
      if lookupJ r "hash" = some (.jstr (digestOf prev r)) then
        if lookupJ r "prev_hash" = some (.jstr prev) then
          verifySpecFrom (digestOf prev r) (i + 1) rs
        else ⟨false, some (i, .prevLinkMismatch)⟩
      else ⟨false, some (i, .hashMismatch)⟩ := by
  simp only [verifySpecFrom, ite_not]

/-! ### The two-check loop against the chain invariant -/

theorem verifyFrom_ok_iff : ∀ (rs : List Record) (prev : String),
    verifyFrom prev rs = .ok true ↔ ChainInv prev rs
  | [], prev => by simp [verifyFrom, ChainInv]
  | r :: rest, prev => by
    rw [verifyFrom_cons]
    cases h : lookupJ r "hash" with
    | none => simp [ChainInv, h]
    | some stored =>
      by_cases hs : JVal.jstr (digestOf prev r) = stored
      · subst hs
        cases h2 : lookupJ r "prev_hash" with
        | none => simp [ChainInv, h, h2]
        | some pv =>
          by_cases hp : pv = JVal.jstr prev
          · subst hp
            simp [ChainInv, h, h2, verifyFrom_ok_iff rest (digestOf prev r)]
          · simp [ChainInv, h, h2, hp]
      · simp only [if_neg hs]
        constructor
        · intro hfalse
          exact absurd (Except.ok.inj hfalse) Bool.false_ne_true
        · rintro ⟨s, hs1, hs2, -, -⟩
          rw [h] at hs1
          obtain rfl : stored = JVal.jstr s := Option.some.inj hs1
          exact absurd (congrArg JVal.jstr hs2.symm) hs

theorem verifyFrom_cons_noPrev {prev : String} {r : Record} {rest : List Record}
    (h1 : lookupJ r "hash" = some (.jstr (digestOf prev r)))
    (h2 : lookupJ r "prev_hash" = none) :
    verifyFrom prev (r :: rest) = .error (.keyError "prev_hash") := by
  rw [verifyFrom_cons, h1]
  simp [h2]

theorem verifyFrom_cons_badPrev {prev : String} {r : Record} {rest : List Record} {pv : JVal}
    (h1 : lookupJ r "hash" = some (.jstr (digestOf prev r)))
    (h2 : lookupJ r "prev_hash" = some pv) (hne : pv ≠ JVal.jstr prev) :
    verifyFrom prev (r :: rest) = .ok false := by
  rw [verifyFrom_cons, h1]
  simp [h2, hne]

/-! ### Early exit at the first offending record -/

theorem verifyFrom_early : ∀ (rs : List Record) (prev : String) (rest2 : List Record),
    verifyFrom prev rs ≠ .ok true → verifyFrom prev (rs ++ rest2) = verifyFrom prev rs
  | [], _, _ => fun hne => absurd rfl hne
  | r :: rest, prev, rest2 => by
    intro hne
    cases h : lookupJ r "hash" with
    | none =>
      rw [List.cons_append, verifyFrom_cons_noHash h, verifyFrom_cons_noHash h]
    | some stored =>
      by_cases hs : JVal.jstr (digestOf prev r) = stored
      · subst hs
        cases h2 : lookupJ r "prev_hash" with
        | none =>
          rw [List.cons_append, verifyFrom_cons_noPrev h h2, verifyFrom_cons_noPrev h h2]
        | some pv =>
          by_cases hp : pv = JVal.jstr prev
          · subst hp
            rw [List.cons_append, verifyFrom_cons_pass h h2, verifyFrom_cons_pass h h2]
            rw [verifyFrom_cons_pass h h2] at hne
            exact verifyFrom_early rest (digestOf prev r) rest2 hne
          · rw [List.cons_append, verifyFrom_cons_badPrev h h2 hp,
              verifyFrom_cons_badPrev h h2 hp]
      · rw [List.cons_append, verifyFrom_cons_badHash h hs, verifyFrom_cons_badHash h hs]

/-! ### The boolean verifier against the position-reporting one -/

theorem verifyFrom_spec_agree : ∀ (rs : List Record) (prev : String) (i : Nat) (b : Bool),
    verifyFrom prev rs = .ok b →
    (verifySpecFrom prev i rs).valid = b ∧
      ((verifySpecFrom prev i rs).failedAt = none ↔ b = true)
  | [], prev, i, b => by
    intro hb
    rw [show verifyFrom prev [] = .ok true from rfl] at hb
    obtain rfl : true = b := Except.ok.inj hb
    simp [verifySpecFrom]
  | r :: rest, prev, i, b => by
    intro hb
    cases h : lookupJ r "hash" with
    | none =>
      rw [verifyFrom_cons_noHash h] at hb
      cases hb
    | some stored =>
      by_cases hs : JVal.jstr (digestOf prev r) = stored
      · subst hs
        cases h2 : lookupJ r "prev_hash" with
        | none =>
          rw [verifyFrom_cons_noPrev h h2] at hb
          cases hb
        | some pv =>
          by_cases hp : pv = JVal.jstr prev
          · subst hp
            rw [verifyFrom_cons_pass h h2] at hb
            rw [verifySpecFrom_cons]
            simp only [if_pos h, if_pos h2]
            exact verifyFrom_spec_agree rest (digestOf prev r) (i + 1) b hb
          · rw [verifyFrom_cons_badPrev h h2 hp] at hb
            obtain rfl : false = b := Except.ok.inj hb
            have hcond : lookupJ r "prev_hash" ≠ some (JVal.jstr prev) := by
              rw [h2]
              intro hc
              exact hp (Option.some.inj hc)
            rw [verifySpecFrom_cons]
            simp [if_pos h, if_neg hcond]
      · rw [verifyFrom_cons_badHash h hs] at hb
        obtain rfl : false = b := Except.ok.inj hb
        have hcond : lookupJ r "hash" ≠ some (JVal.jstr (digestOf prev r)) := by
          rw [h]
          intro hc
          exact hs (Option.some.inj hc).symm
        rw [verifySpecFrom_cons]
        simp [if_neg hcond]

/-! ### Tamper detection -/

theorem tamper_aux : ∀ (a : List Record) (prev : String) (i : Nat) (r : Record)
    (b : List Record) (f : String) (v : JVal),
    f ≠ "hash" →
    verifyFrom prev (a ++ r :: b) = .ok true →
    sha256hex (chainPrev prev a ++ payloadOf (setKey r f v)) ≠
      sha256hex (chainPrev prev a ++ payloadOf r) →
    verifyFrom prev (a ++ setKey r f v :: b) = .ok false ∧
    (verifySpecFrom prev i (a ++ setKey r f v :: b)).failedAt =
      some (i + a.length, .hashMismatch)
  | [], prev, i, r, b, f, v => by
    intro hf hok hcoll
    rw [List.nil_append] at hok ⊢
    rw [verifyFrom_ok_iff] at hok
    obtain ⟨s, h1, rfl, h2, -⟩ := hok
    have hdig : digestOf prev (setKey r f v) ≠ digestOf prev r := by
      simpa [chainPrev, digestOf] using hcoll
    have hdne : JVal.jstr (digestOf prev (setKey r f v)) ≠ JVal.jstr (digestOf prev r) :=
      fun hc => hdig (JVal.jstr.inj hc)
    have hl : lookupJ (setKey r f v) "hash" = some (.jstr (digestOf prev r)) := by
      rw [lookup_setKey_ne r f "hash" v (Ne.symm hf)]
      exact h1
    refine ⟨verifyFrom_cons_badHash hl hdne, ?_⟩
    have hcond : lookupJ (setKey r f v) "hash" ≠
        some (JVal.jstr (digestOf prev (setKey r f v))) := by
      rw [hl]
      intro hc
      exact hdne (Option.some.inj hc).symm
    rw [verifySpecFrom_cons]
    simp [if_neg hcond]
  | r0 :: a', prev, i, r, b, f, v => by
    intro hf hok hcoll
    rw [List.cons_append] at hok ⊢
    rw [verifyFrom_ok_iff] at hok
    obtain ⟨s, h1, rfl, h2, hrest⟩ := hok
    have hok' : verifyFrom (digestOf prev r0) (a' ++ r :: b) = .ok true :=
      (verifyFrom_ok_iff _ _).mpr hrest
    have hcoll' : sha256hex (chainPrev (digestOf prev r0) a' ++ payloadOf (setKey r f v)) ≠
        sha256hex (chainPrev (digestOf prev r0) a' ++ payloadOf r) := by
      simpa [chainPrev] using hcoll
    obtain ⟨ih1, ih2⟩ := tamper_aux a' (digestOf prev r0) (i + 1) r b f v hf hok' hcoll'
    constructor
    · rw [verifyFrom_cons_pass h1 h2]
      exact ih1
    · rw [verifySpecFrom_cons]
      simp only [if_pos h1, if_pos h2]
      rw [ih2, List.length_cons]
      have harith : i + 1 + a'.length = i + (a'.length + 1) := by omega
      rw [harith]

/-! ### Round trip of sequential appends -/

theorem key_ne_of_lookup_none {fs : Record} {k : String} (h : lookupJ fs k = none) :
    ∀ p ∈ fs, p.1 ≠ k := by
  intro p hp hc
  rw [lookupJ, List.lookup_eq_none_iff] at h
  have := h p hp
  simp [hc] at this

theorem appendRec_hash {t : String} {fs : Record} (hh : lookupJ fs "hash" = none) :
    lookupJ (appendRec t fs) "hash" =
      some (.jstr (sha256hex (t ++ dumps (.jobj (fs ++ [("prev_hash", JVal.jstr t)]))))) := by
  rw [lookupJ] at hh
  simp [appendRec, lookupJ, List.lookup_append, List.lookup_cons, hh]

theorem appendRec_payload {t : String} {fs : Record} (hh : lookupJ fs "hash" = none) :
    payloadOf (appendRec t fs) = dumps (.jobj (fs ++ [("prev_hash", JVal.jstr t)])) := by
  unfold payloadOf appendRec
  congr 1
  rw [List.filter_append, List.filter_append]
  have h1 : List.filter (fun p => p.1 != "hash") fs = fs := by
    rw [List.filter_eq_self]
    intro p hp
    have := key_ne_of_lookup_none hh p hp
    simp [this]
  rw [h1]
  simp

theorem appendRec_prev {t : String} {fs : Record} (hp : lookupJ fs "prev_hash" = none) :
    lookupJ (appendRec t fs) "prev_hash" = some (.jstr t) := by
  rw [lookupJ] at hp
  simp [appendRec, lookupJ, List.lookup_append, List.lookup_cons, hp]

theorem buildChain_ok : ∀ (fss : List Record) (t : String),
    (∀ fs ∈ fss, lookupJ fs "hash" = none ∧ lookupJ fs "prev_hash" = none) →
    verifyFrom t (buildChain t fss) = .ok true
  | [], t, _ => rfl
  | fs :: rest, t, hyp => by
    have hh := (hyp fs (List.mem_cons_self fs rest)).1
    have hp := (hyp fs (List.mem_cons_self fs rest)).2
    rw [buildChain]
    have hdig : digestOf t (appendRec t fs) =
        sha256hex (t ++ dumps (.jobj (fs ++ [("prev_hash", JVal.jstr t)]))) := by
      rw [digestOf, appendRec_payload hh]
    have h1 : lookupJ (appendRec t fs) "hash" = some (.jstr (digestOf t (appendRec t fs))) := by
      rw [appendRec_hash hh, hdig]
    rw [verifyFrom_cons_pass h1 (appendRec_prev hp), hdig]
    exact buildChain_ok rest _ (fun g hg => hyp g (List.mem_cons_of_mem fs hg))

/-! ### The unguarded pop raises on a missing hash key -/

theorem keyError_aux : ∀ (a : List Record) (prev : String) (r : Record) (b : List Record),
    verifyFrom prev a = .ok true → lookupJ r "hash" = none →
    verifyFrom prev (a ++ r :: b) = .error (.keyError "hash")
  | [], _, _, _, _, hmiss => by
    rw [List.nil_append]
    exact verifyFrom_cons_noHash hmiss
  | r0 :: a', prev, r, b, hpass, hmiss => by
    rw [List.cons_append]
    rw [verifyFrom_ok_iff] at hpass
    obtain ⟨s, h1, rfl, h2, hrest⟩ := hpass
    rw [verifyFrom_cons_pass h1 h2]
    exact keyError_aux a' _ r b ((verifyFrom_ok_iff _ _).mpr hrest) hmiss

/-! ### Order independence of the canonical serialization -/

theorem ltChars_asymm : ∀ a b : List Char, ltChars a b = true → ltChars b a = false
  | [], [] => by simp [ltChars]
  | [], _ :: _ => by simp [ltChars]
  | _ :: _, [] => by simp [ltChars]
  | a :: as, b :: bs => by
    intro h
    simp only [ltChars] at h ⊢
    by_cases h1 : a.toNat < b.toNat
    · have h2 : ¬ b.toNat < a.toNat := by omega
      simp [h1, h2]
    · by_cases h2 : b.toNat < a.toNat
      · simp [h1, h2] at h
      · simp only [h1, h2, if_false] at h ⊢
        exact ltChars_asymm as bs h

theorem ltChars_conn : ∀ a b : List Char, ltChars a b = false → ltChars b a = false → a = b
  | [], [] => fun _ _ => rfl
  | [], _ :: _ => by simp [ltChars]
  | _ :: _, [] => by simp [ltChars]
  | a :: as, b :: bs => by
    intro h1 h2
    simp only [ltChars] at h1 h2
    by_cases ha : a.toNat < b.toNat
    · simp [ha] at h1
    · by_cases hb : b.toNat < a.toNat
      · simp [ha, hb] at h2
      · have hn : a.toNat = b.toNat := by omega
        have hab : a = b := Char.eq_of_val_eq (UInt32.toNat.inj hn)
        subst hab
        simp only [ha, hb, if_false] at h1 h2
        rw [ltChars_conn as bs h1 h2]

theorem ltChars_trans : ∀ a b c : List Char,
    ltChars a b = true → ltChars b c = true → ltChars a c = true
  | [], [], _ => by simp [ltChars]
  | [], _ :: _, [] => by intro _ h2; simp [ltChars] at h2
  | [], _ :: _, _ :: _ => by intro _ _; simp [ltChars]
  | _ :: _, [], _ => by intro h1; simp [ltChars] at h1
  | _ :: _, _ :: _, [] => by intro _ h2; simp [ltChars] at h2
  | a :: as, b :: bs, c :: cs => by
    intro h1 h2
    simp only [ltChars] at h1 h2 ⊢
    by_cases hab : a.toNat < b.toNat
    · by_cases hbc : b.toNat < c.toNat
      · simp [show a.toNat < c.toNat by omega]
      · by_cases hcb : c.toNat < b.toNat
        · simp [hbc, hcb] at h2
        · simp [show a.toNat < c.toNat by omega]
    · by_cases hba : b.toNat < a.toNat
      · simp [hab, hba] at h1
      · simp only [hab, hba, if_false] at h1
        by_cases hbc : b.toNat < c.toNat
        · simp [show a.toNat < c.toNat by omega]
        · by_cases hcb : c.toNat < b.toNat
          · simp [hbc, hcb] at h2
          · simp only [hbc, hcb, if_false] at h2
            have hac : ¬ a.toNat < c.toNat := by omega
            have hca : ¬ c.toNat < a.toNat := by omega
            simp only [hac, hca, if_false]
            exact ltChars_trans as bs cs h1 h2

/-- Entry order used by the serialized-object sort: `p` before `q` when `q`'s
key is not strictly below `p`'s. -/
def leP (p q : String × String) : Prop := ltChars q.1.data p.1.data = false

theorem insKey_perm (p : String × String) : ∀ l, (insKey p l).Perm (p :: l)
  | [] => List.Perm.refl _
  | q :: qs => by
    simp only [insKey]
    by_cases h : ltChars p.1.data q.1.data
    · simp [h]
    · simp only [h, if_false]
      exact ((insKey_perm p qs).cons q).trans (List.Perm.swap p q qs)

theorem sortPairs_perm : ∀ l, (sortPairs l).Perm l
  | [] => List.Perm.refl _
  | p :: ps => (insKey_perm p (sortPairs ps)).trans ((sortPairs_perm ps).cons p)

theorem insKey_sorted (p : String × String) :
    ∀ l, l.Pairwise leP → (insKey p l).Pairwise leP
  | [], _ => by simp [insKey, leP]
  | q :: qs, hs => by
    rw [List.pairwise_cons] at hs
    obtain ⟨hq, hqs⟩ := hs
    simp only [insKey]
    by_cases h : ltChars p.1.data q.1.data
    · simp only [h, if_true]
      refine List.Pairwise.cons ?_ (List.Pairwise.cons hq hqs)
      intro y hy
      rcases List.mem_cons.mp hy with rfl | hy2
      · exact ltChars_asymm _ _ h
      · show ltChars y.1.data p.1.data = false
        by_contra hcon
        have hcon' : ltChars y.1.data p.1.data = true := by
          cases hx : ltChars y.1.data p.1.data
          · exact absurd hx hcon
          · rfl
        have := ltChars_trans _ _ _ hcon' h
        rw [hq y hy2] at this
        cases this
    · simp only [h, if_false]
      refine List.Pairwise.cons ?_ (insKey_sorted p qs hqs)
      intro y hy
      have hy' := (insKey_perm p qs).mem_iff.mp hy
      rcases List.mem_cons.mp hy' with rfl | hy2
      · show ltChars y.1.data q.1.data = false
        cases hx : ltChars y.1.data q.1.data
        · rfl
        · exact absurd hx h
      · exact hq y hy2

theorem sortPairs_sorted : ∀ l, (sortPairs l).Pairwise leP
  | [] => List.Pairwise.nil
  | p :: ps => insKey_sorted p (sortPairs ps) (sortPairs_sorted ps)

/-- Strict key order on serialized entries. -/
def ltP (p q : String × String) : Prop := ltChars p.1.data q.1.data = true

instance : IsAntisymm (String × String) ltP where
  antisymm := fun p q h1 h2 => by
    have := ltChars_asymm _ _ h1
    rw [h2] at this
    cases this

theorem sorted_nodup_eq (l1 l2 : List (String × String)) (hperm : l1.Perm l2)
    (hnd : (l1.map Prod.fst).Nodup) (hs1 : l1.Pairwise leP) (hs2 : l2.Pairwise leP) :
    l1 = l2 := by
  have hnd2 : (l2.map Prod.fst).Nodup := (hperm.map Prod.fst).nodup_iff.mp hnd
  have strict : ∀ (l : List (String × String)),
      (l.map Prod.fst).Nodup → l.Pairwise leP → l.Pairwise ltP := by
    intro l hl hp
    have hne : l.Pairwise (fun p q : String × String => p.1 ≠ q.1) :=
      List.pairwise_map.mp hl
    have := hp.and hne
    refine this.imp ?_
    rintro p q ⟨hle, hneq⟩
    show ltChars p.1.data q.1.data = true
    cases hx : ltChars p.1.data q.1.data
    · exact absurd (String.ext (ltChars_conn _ _ hx hle)) hneq
    · rfl
  exact List.eq_of_perm_of_sorted hperm (strict l1 hnd hs1) (strict l2 hnd2 hs2)

theorem dumpsEntries_eq_map : ∀ kvs : List (String × JVal),
    dumpsEntries kvs = kvs.map (fun kv => (kv.1, dumpStr kv.1 ++ ":" ++ dumps kv.2))
  | [] => rfl
  | (k, v) :: rest => by simp [dumpsEntries, dumpsEntries_eq_map rest]

/-- Two records with the same fields, inserted in any order, serialize to the
same canonical text. -/
theorem dumps_obj_perm (kvs kvs2 : List (String × JVal)) (hperm : kvs.Perm kvs2)
    (hnd : (kvs.map Prod.fst).Nodup) :
    dumps (.jobj kvs) = dumps (.jobj kvs2) := by
  have hp : (dumpsEntries kvs).Perm (dumpsEntries kvs2) := by
    rw [dumpsEntries_eq_map, dumpsEntries_eq_map]
    exact hperm.map _
  have hnd1 : ((dumpsEntries kvs).map Prod.fst).Nodup := by
    rw [dumpsEntries_eq_map, List.map_map]
    simpa [Function.comp_def] using hnd
  have hperm' : (sortPairs (dumpsEntries kvs)).Perm (sortPairs (dumpsEntries kvs2)) :=
    ((sortPairs_perm _).trans hp).trans (sortPairs_perm _).symm
  have hnd' : ((sortPairs (dumpsEntries kvs)).map Prod.fst).Nodup :=
    (((sortPairs_perm (dumpsEntries kvs)).map Prod.fst).nodup_iff).mpr hnd1
  have heq := sorted_nodup_eq _ _ hperm' hnd' (sortPairs_sorted _) (sortPairs_sorted _)
  simp only [dumps, heq]

/-! ### The digest is a 64-character lowercase hex string -/

/-- The sixteen lowercase hexadecimal digits. -/
def hexCharList : List Char := String.data "0123456789abcdef"

theorem hexDigit_mem (n : Nat) (h : n < 16) : hexDigit n ∈ hexCharList := by
  revert h
  revert n
  decide

theorem hex8_length (w : Nat) : (hex8 w).length = 8 := by
  simp [hex8, String.length]

theorem hex8_chars (w : Nat) : ∀ c ∈ (hex8 w).data, c ∈ hexCharList := by
  intro c hc
  simp only [hex8, String.data] at hc
  obtain ⟨i, -, rfl⟩ := List.mem_map.mp hc
  exact hexDigit_mem _ (Nat.mod_lt _ (by omega))

theorem sha256hex_length (s : String) : (sha256hex s).length = 64 := by
  simp [sha256hex, String.length_append, hex8_length]

theorem sha256hex_chars (s : String) : ∀ c ∈ (sha256hex s).data, c ∈ hexCharList := by
  intro c hc
  simp only [sha256hex, String.data_append, List.mem_append] at hc
  rcases hc with ((((((hc | hc) | hc) | hc) | hc) | hc) | hc) | hc <;> exact hex8_chars _ c hc

/-! ### Heap facts -/

theorem readH_alloc_lt {h : Heap} {r : Record} {i : Nat} (hi : i < h.cells.length) :
    readH ⟨h.cells ++ [r]⟩ i = readH h i := by
  simp [readH, List.getD_eq_getElem?_getD, List.getElem?_append_left hi]

theorem readH_alloc_self {h : Heap} {r : Record} :
    readH ⟨h.cells ++ [r]⟩ h.cells.length = r := by
  simp [readH, List.getD_eq_getElem?_getD, List.getElem?_append_right (Nat.le_refl _)]

theorem readH_write_ne {h : Heap} {j : Nat} {r : Record} {i : Nat} (hne : i ≠ j) :
    readH (writeH h j r) i = readH h i := by
  simp [readH, writeH, List.getD_eq_getElem?_getD, List.getElem?_set_ne (Ne.symm hne)]

theorem readH_write_self {h : Heap} {j : Nat} {r : Record} (hj : j < h.cells.length) :
    readH (writeH h j r) j = r := by
  simp [readH, writeH, List.getD_eq_getElem?_getD, List.getElem?_set_self hj]

/-- The heap run agrees with the pure function, and leaves every record that
existed before the call untouched: copies are fresh cells, and the only write
(the `pop`) lands on the fresh copy. -/
theorem verifyFromH_spec : ∀ (idxs : List Nat) (h : Heap) (prev : String),
    (∀ i ∈ idxs, i < h.cells.length) →
    (verifyFromH h prev idxs).1 = verifyFrom prev (idxs.map (readH h)) ∧
    (∀ k, k < h.cells.length → readH (verifyFromH h prev idxs).2 k = readH h k)
  | [], _, _, _ => ⟨rfl, fun _ _ => rfl⟩
  | i :: rest, h, prev, hin => by
    have hi : i < h.cells.length := hin i (List.mem_cons_self i rest)
    have e1 : readH ⟨h.cells ++ [readH h i]⟩ h.cells.length = readH h i := readH_alloc_self
    simp only [verifyFromH, copyH, allocH, popH, e1, List.map_cons]
    cases hl : lookupJ (readH h i) "hash" with
    | none =>
      simp only [verifyFrom, popKey, hl]
      exact ⟨by simp, fun k hk => readH_alloc_lt hk⟩
    | some v =>
      have hj1 : h.cells.length < (h.cells ++ [readH h i]).length := by simp
      have e2 : readH (writeH ⟨h.cells ++ [readH h i]⟩ h.cells.length
          (List.filter (fun p => p.1 != "hash") (readH h i))) h.cells.length =
          List.filter (fun p => p.1 != "hash") (readH h i) :=
        readH_write_self hj1
      have eframe : ∀ k, k < h.cells.length →
          readH (writeH ⟨h.cells ++ [readH h i]⟩ h.cells.length
            (List.filter (fun p => p.1 != "hash") (readH h i))) k = readH h k := by
        intro k hk
        rw [readH_write_ne (Nat.ne_of_lt hk)]
        exact readH_alloc_lt hk
      have hlen2 : (writeH ⟨h.cells ++ [readH h i]⟩ h.cells.length
          (List.filter (fun p => p.1 != "hash") (readH h i))).cells.length =
          h.cells.length + 1 := by
        simp [writeH]
      simp only [verifyFrom, popKey, hl, e2]
      by_cases hcond : JVal.jstr (sha256hex (prev ++
          dumps (.jobj (List.filter (fun p => p.1 != "hash") (readH h i))))) = v
      · rw [if_neg (not_not_intro hcond), if_neg (not_not_intro hcond)]
        cases hpv : lookupJ (List.filter (fun p => p.1 != "hash") (readH h i)) "prev_hash" with
        | none => exact ⟨rfl, eframe⟩
        | some pv =>
          dsimp only
          by_cases hp : pv = JVal.jstr prev
          · rw [if_neg (not_not_intro hp), if_neg (not_not_intro hp)]
            have hin2 : ∀ k ∈ rest, k < (writeH ⟨h.cells ++ [readH h i]⟩ h.cells.length
                (List.filter (fun p => p.1 != "hash") (readH h i))).cells.length := by
              intro k hk
              rw [hlen2]
              exact Nat.lt_succ_of_lt (hin k (List.mem_cons_of_mem i hk))
            obtain ⟨ihagree, ihframe⟩ := verifyFromH_spec rest
              (writeH ⟨h.cells ++ [readH h i]⟩ h.cells.length
                (List.filter (fun p => p.1 != "hash") (readH h i)))
              (sha256hex (prev ++
                dumps (.jobj (List.filter (fun p => p.1 != "hash") (readH h i)))))
              hin2
            constructor
            · rw [ihagree]
              congr 1
              exact List.map_congr_left
                (fun k hk => eframe k (hin k (List.mem_cons_of_mem i hk)))
            · intro k hk
              rw [ihframe k (by rw [hlen2]; exact Nat.lt_succ_of_lt hk)]
              exact eframe k hk
          · rw [if_pos hp, if_pos hp]
            exact ⟨rfl, eframe⟩
      · rw [if_pos hcond, if_pos hcond]
        exact ⟨rfl, eframe⟩

/-! ### Concrete inputs used by the witnesses and counterexamples -/

set_option maxRecDepth 1000000

/-- Fields of a spliced record: its `prev_hash` rewritten to sixty-four '1'
characters instead of the genesis sentinel. -/
def fieldsC2 : Record := [("prev_hash", JVal.jstr (String.mk (List.replicate 64 '1')))]

/-- A record whose `prev_hash` link is wrong but whose stored hash equals the
digest computed from the true expected predecessor, the genesis sentinel. -/
def recC2 : Record :=
  fieldsC2 ++ [("hash", JVal.jstr (sha256hex (genesisSentinel ++ dumps (.jobj fieldsC2))))]

/-- A correct genesis record with no payload fields. -/
def recOk : Record := appendRec genesisSentinel []

/-- A record whose stored hash is not the recomputed digest. -/
def recBad0 : Record := [("prev_hash", JVal.jstr genesisSentinel), ("hash", JVal.jstr "nope")]

/-- A correct genesis record with one payload field. -/
def recC6 : Record := appendRec genesisSentinel [("decision_id", JVal.jstr "d1")]

/-- A two-entry object. -/
def kvsW : List (String × JVal) := [("b", JVal.jint 1), ("a", JVal.jstr "x")]

/-- The same two entries inserted in the other order. -/
def kvsW2 : List (String × JVal) := [("a", JVal.jstr "x"), ("b", JVal.jint 1)]

/-- Field sets for a two-record ledger built by sequential appends. -/
def ledgerFieldsW : List Record :=
  [[("decision_id", JVal.jstr "d1")], [("decision_id", JVal.jstr "d2")]]

/-- A one-cell heap holding a record without a `hash` key. -/
def heapW : Heap := ⟨[[("user_id", JVal.jstr "u1")]]⟩

/-! ### The claims -/

/-- C1: `verify_chain(records)` returns True exactly when, threading the
expected predecessor hash from the genesis sentinel, every record's stored
hash equals the SHA-256 digest of the expected predecessor concatenated with
the canonical serialization of the record without its hash field, and every
record's stored `prev_hash` equals the expected predecessor. -/
theorem claim_C1 (records : List Record) :
    verify_chain records = .ok true ↔ ChainInv genesisSentinel records :=
  verifyFrom_ok_iff records genesisSentinel

/-- C2: checking only the recomputed hash is insufficient — there is a record
sequence that the hash-only verifier of E3.py accepts and the two-check
verifier of db.py rejects, namely one whose stored `prev_hash` is rewritten
while the stored hash still equals the digest computed from the true expected
predecessor hash. -/
theorem claim_C2 :
    ∃ records : List Record,
      verify_chainE3 records = .ok true ∧ verify_chain records = .ok false :=
  ⟨[recC2], by decide, by decide⟩

/-- C3: on any accepted sequence, replacing one field (other than `hash`) of
record `i` by a value that changes the canonical serialization makes
`verify_chain` return False, and the first failing check sits at a position
at least `i` — provided SHA-256 is collision-free on the two digest inputs
involved. -/
theorem claim_C3 (a : List Record) (r : Record) (b : List Record) (f : String) (v : JVal)
    (hf : f ≠ "hash")
    (hok : verify_chain (a ++ r :: b) = .ok true)
    (_hchg : payloadOf (setKey r f v) ≠ payloadOf r)
    (hcoll : sha256hex (chainPrev genesisSentinel a ++ payloadOf (setKey r f v)) ≠
      sha256hex (chainPrev genesisSentinel a ++ payloadOf r)) :
    verify_chain (a ++ setKey r f v :: b) = .ok false ∧
    ∃ j reason, (verifySpec (a ++ setKey r f v :: b)).failedAt = some (j, reason) ∧
      a.length ≤ j := by
  obtain ⟨h1, h2⟩ := tamper_aux a genesisSentinel 0 r b f v hf hok hcoll
  refine ⟨h1, a.length, .hashMismatch, ?_, Nat.le_refl _⟩
  simpa [verifySpec] using h2

theorem claim_C3_witness :
    verify_chain ([] ++ recOk :: []) = .ok true ∧
    payloadOf (setKey recOk "a" (JVal.jstr "x")) ≠ payloadOf recOk ∧
    (verify_chain ([] ++ setKey recOk "a" (JVal.jstr "x") :: []) = .ok false ∧
      ∃ j reason,
        (verifySpec ([] ++ setKey recOk "a" (JVal.jstr "x") :: [])).failedAt =
          some (j, reason) ∧ (List.length ([] : List Record)) ≤ j) :=
  ⟨by decide, by decide,
    claim_C3 [] recOk [] "a" (JVal.jstr "x") (by decide) (by decide) (by decide) (by decide)⟩

/-- C4 (amended): db.py's `verify_chain` stops at the first offending record —
its result is unchanged by whatever follows a failure — and agrees with the
spec's verifier on validity whenever it returns a boolean; but it returns only
that bare boolean, not the position/reason diagnostics of the spec interface
(see the counterexample). -/
theorem claim_C4 (rs rest : List Record) (b : Bool) :
    (verify_chain rs = .ok b →
      (verifySpec rs).valid = b ∧ ((verifySpec rs).failedAt = none ↔ b = true)) ∧
    (verify_chain rs ≠ .ok true → verify_chain (rs ++ rest) = verify_chain rs) :=
  ⟨fun hb => verifyFrom_spec_agree rs genesisSentinel 0 b hb,
   fun hne => verifyFrom_early rs genesisSentinel rest hne⟩

theorem claim_C4_witness :
    ((verifySpec [recBad0]).valid = false ∧
      ((verifySpec [recBad0]).failedAt = none ↔ false = true)) ∧
    verify_chain ([recBad0] ++ [recOk]) = verify_chain [recBad0] :=
  ⟨(claim_C4 [recBad0] [recOk] false).1 (by decide),
   (claim_C4 [recBad0] [recOk] false).2 (by decide)⟩

/-- C4 (counterexample): the value `verify_chain` returns is a bare boolean
that cannot carry the failing position — two tampered ledgers whose first
offending positions differ (0 and 1 by the spec's replay) map to the same
return value, so no reading of the result recovers `failedAt`. -/
theorem claim_C4_counterexample :
    verify_chain [recBad0] = .ok false ∧
    verify_chain [recOk, recBad0] = .ok false ∧
    (verifySpec [recBad0]).failedAt = some (0, .hashMismatch) ∧
    (verifySpec [recOk, recBad0]).failedAt = some (1, .hashMismatch) ∧
    ¬ ∃ f : Except PyErr Bool → Option (Nat × FailReason),
        ∀ rs : List Record, f (verify_chain rs) = (verifySpec rs).failedAt := by
  have hv1 : verify_chain [recBad0] = .ok false := by decide
  have hv2 : verify_chain [recOk, recBad0] = .ok false := by decide
  have hs1 : (verifySpec [recBad0]).failedAt = some (0, .hashMismatch) := by decide
  have hs2 : (verifySpec [recOk, recBad0]).failedAt = some (1, .hashMismatch) := by decide
  refine ⟨hv1, hv2, hs1, hs2, ?_⟩
  rintro ⟨f, hf⟩
  have h1 := hf [recBad0]
  have h2 := hf [recOk, recBad0]
  rw [hv1, hs1] at h1
  rw [hv2, hs2] at h2
  rw [h1] at h2
  simp at h2

/-- C5 (amended): the zero-record case is reported distinctly by the caller —
db.py's emptiness guard stops with a "no data" warning before `verify_chain`
runs, and the empty-ledger status arises exactly on the empty sequence — but
the verification function itself does classify the empty sequence: it returns
True on it (see the counterexample). -/
theorem claim_C5 :
    (∀ records : List Record, dashboardStatus records = .emptyLedger ↔ records = []) ∧
    verify_chain ([] : List Record) = .ok true := by
  refine ⟨?_, rfl⟩
  intro records
  cases records with
  | nil => simp [dashboardStatus]
  | cons r rs =>
    have hne : dashboardStatus (r :: rs) ≠ .emptyLedger := by
      unfold dashboardStatus
      rw [if_neg (by simp)]
      cases verify_chain (r :: rs) with
      | ok bb => cases bb <;> simp
      | error e => simp
    simp [hne]

/-- C5 (counterexample): `verify_chain` itself does judge the empty sequence —
it returns True on it, classifying it as valid rather than declining. -/
theorem claim_C5_counterexample : verify_chain ([] : List Record) = .ok true := rfl

/-- C6: the genesis sentinel is the string of 64 ASCII '0' characters, and a
one-record ledger whose `prev_hash` is the sentinel and whose hash is the
digest of the sentinel concatenated with the record's canonical serialization
verifies VALID. -/
theorem claim_C6 :
    (genesisSentinel.length = 64 ∧ ∀ c ∈ genesisSentinel.data, c = '0') ∧
    ∀ r : Record,
      lookupJ r "prev_hash" = some (.jstr genesisSentinel) →
      lookupJ r "hash" = some (.jstr (digestOf genesisSentinel r)) →
      verify_chain [r] = .ok true := by
  refine ⟨⟨by decide, by decide⟩, ?_⟩
  intro r hp hh
  unfold verify_chain
  rw [verifyFrom_cons_pass hh hp]
  rfl

theorem claim_C6_witness :
    lookupJ recC6 "prev_hash" = some (.jstr genesisSentinel) ∧
    lookupJ recC6 "hash" = some (.jstr (digestOf genesisSentinel recC6)) ∧
    verify_chain [recC6] = .ok true :=
  ⟨by decide, by decide, claim_C6.2 recC6 (by decide) (by decide)⟩

/-- C7: canonical serialization is order independent — two records with the
same fields (unique keys) serialize byte-identically regardless of insertion
order, so the digests computed from them coincide — and every digest the
implementation produces is a 64-character lowercase hexadecimal string. -/
theorem claim_C7 :
    (∀ kvs kvs2 : List (String × JVal), kvs.Perm kvs2 → (kvs.map Prod.fst).Nodup →
      dumps (.jobj kvs) = dumps (.jobj kvs2)) ∧
    (∀ (prev : String) (kvs kvs2 : List (String × JVal)), kvs.Perm kvs2 →
      (kvs.map Prod.fst).Nodup →
      sha256hex (prev ++ dumps (.jobj kvs)) = sha256hex (prev ++ dumps (.jobj kvs2))) ∧
    (∀ s : String, (sha256hex s).length = 64 ∧ ∀ c ∈ (sha256hex s).data, c ∈ hexCharList) := by
  refine ⟨dumps_obj_perm, ?_, fun s => ⟨sha256hex_length s, sha256hex_chars s⟩⟩
  intro prev kvs kvs2 hp hnd
  rw [dumps_obj_perm kvs kvs2 hp hnd]

theorem claim_C7_witness :
    dumps (.jobj kvsW) = dumps (.jobj kvsW2) ∧
    sha256hex (genesisSentinel ++ dumps (.jobj kvsW)) =
      sha256hex (genesisSentinel ++ dumps (.jobj kvsW2)) :=
  ⟨claim_C7.1 kvsW kvsW2 (List.Perm.swap ("a", JVal.jstr "x") ("b", JVal.jint 1) []) (by decide),
   claim_C7.2.1 genesisSentinel kvsW kvsW2
     (List.Perm.swap ("a", JVal.jstr "x") ("b", JVal.jint 1) []) (by decide)⟩

/-- C8: a ledger built purely by sequential Append calls — each record's
`prev_hash` the current tail hash (genesis sentinel first) and its hash the
digest of the tail concatenated with its canonical serialization — always
verifies VALID. -/
theorem claim_C8 (fss : List Record)
    (hclean : ∀ fs ∈ fss, lookupJ fs "hash" = none ∧ lookupJ fs "prev_hash" = none) :
    verify_chain (buildLedger fss) = .ok true :=
  buildChain_ok fss genesisSentinel hclean

theorem claim_C8_witness :
    (∀ fs ∈ ledgerFieldsW, lookupJ fs "hash" = none ∧ lookupJ fs "prev_hash" = none) ∧
    verify_chain (buildLedger ledgerFieldsW) = .ok true :=
  ⟨by decide, claim_C8 ledgerFieldsW (by decide)⟩

/-- C9: verification is read-only — run over heap-allocated records it agrees
with the pure function, and every record cell that existed before the call
holds the same value afterwards, because the loop pops `hash` from a fresh
copy of each record, never from the record itself. -/
theorem claim_C9 (h : Heap) (idxs : List Nat)
    (hin : ∀ i ∈ idxs, i < h.cells.length) :
    (verifyFromH h genesisSentinel idxs).1 = verify_chain (idxs.map (readH h)) ∧
    (∀ k, k < h.cells.length → readH (verifyFromH h genesisSentinel idxs).2 k = readH h k) :=
  verifyFromH_spec idxs h genesisSentinel hin

theorem claim_C9_witness :
    (∀ i ∈ [0], i < heapW.cells.length) ∧
    ((verifyFromH heapW genesisSentinel [0]).1 = verify_chain ([0].map (readH heapW)) ∧
      (∀ k, k < heapW.cells.length →
        readH (verifyFromH heapW genesisSentinel [0]).2 k = readH heapW k)) :=
  ⟨by decide, claim_C9 heapW [0] (by decide)⟩

/-- C10: a record without a `hash` key makes `verify_chain` raise KeyError
instead of returning a boolean, whenever that record sits at or before the
first failing position — here phrased as: the records before it all pass both
checks. -/
theorem claim_C10 (a : List Record) (r : Record) (b : List Record)
    (hpass : verify_chain a = .ok true)
    (hmiss : lookupJ r "hash" = none) :
    verify_chain (a ++ r :: b) = .error (.keyError "hash") :=
  keyError_aux a genesisSentinel r b hpass hmiss

theorem claim_C10_witness :
    verify_chain ([] : List Record) = .ok true ∧
    lookupJ [("user_id", JVal.jstr "u1")] "hash" = none ∧
    verify_chain ([] ++ [("user_id", JVal.jstr "u1")] :: []) = .error (.keyError "hash") :=
  ⟨rfl, by decide, claim_C10 [] [("user_id", JVal.jstr "u1")] [] rfl (by decide)⟩

end TTrace
